import Mathlib

/-!
# Verification of the shortcut row store

A shallow embedding of the shortcut crate: an in-memory, append-only row
store with pluggable secondary indices and a cost-based index-selection
planner (`src/src/lib.rs`).  The `Store` operations (`find`, `insert`,
`index`) are translated directly from `src/src/lib.rs`.  The `cmp` and
`idx` modules are declared by `lib.rs` but their files are not part of the
sources, so `Condition`/`Comparison`/`Value`/`matches` and the hash-based
equality index are modelled from the specification.

Modelling conventions:
* Rust `Vec` becomes `List`; `usize` becomes `Nat`.
* A panic (assertion failure or out-of-bounds slice indexing) is modelled
  by `Option.none` / `InsertResult.panicked`; for `insert` the `panicked`
  constructor additionally records the state of the store at the moment
  the panic fires, so that claims about mutation-before-panic are
  expressible.
* Rust's `HashMap` is modelled as an association list with unique keys;
  the store's code never depends on `HashMap` iteration order for an
  observable result on a non-panicking path.
* `Iterator::min_by_key` returns the first of several equally minimal
  elements (documented behaviour of the Rust standard library); it is
  modelled by `minByKeyFirst`.
-/

namespace Shortcut

/-- Modelled from the spec: the operand of a comparison.  The comparison
model of the source supports only equality against a constant, so `Value`
has the single constructor `Const`. -/
inductive Value (T : Type) where
  | Const : T → Value T
deriving DecidableEq

/-- Modelled from the spec: a comparison applied to a column value.  The
only comparison kind of the source is equality. -/
inductive Comparison (T : Type) where
  | Equal : Value T → Comparison T
deriving DecidableEq

/-- Modelled from the spec: a single-column predicate combining a column
number and a comparison. -/
structure Condition (T : Type) where
  column : Nat
  cmp : Comparison T
deriving DecidableEq

variable {T : Type}

/-- Modelled from the spec: `matches` evaluates one condition against one
row by reading `row[condition.column]` and comparing it per the
condition's comparison; for `Equal(Const(v))` the comparison is the
equality of `T`.  Reading past the end of the row is a panic, modelled by
`none`. -/
def Condition.matches [DecidableEq T] (c : Condition T) (row : List T) : Option Bool :=
  match c.cmp with
  | .Equal (.Const v) => (row.get? c.column).map (fun x => decide (x = v))

/-- Modelled from the spec: the hash-based equality index, backed by a
mapping from value to the ordered sequence of row identifiers sharing
that value.  The mapping is an association list with unique keys. -/
structure HashIndex (T : Type) where
  map : List (T × List Nat)
deriving DecidableEq

/-- Modelled from the spec: a fresh, empty hash index. -/
def HashIndex.new : HashIndex T := ⟨[]⟩

/-- Modelled from the spec: append `rowi` to the bucket of `v`, creating
the bucket if the key is absent. -/
def bucketAdd [DecidableEq T] (v : T) (rowi : Nat) :
    List (T × List Nat) → List (T × List Nat)
  | [] => [(v, [rowi])]
  | e :: rest => if e.1 = v then (e.1, e.2 ++ [rowi]) :: rest else e :: bucketAdd v rowi rest

/-- Modelled from the spec: the bucket of `v`, empty when the key is
absent (absent keys are not an error). -/
def bucketGet [DecidableEq T] (v : T) : List (T × List Nat) → List Nat
  | [] => []
  | e :: rest => if e.1 = v then e.2 else bucketGet v rest

/-- Modelled from the spec: `record` incorporates one new
(value, row-id) pair. -/
def HashIndex.record [DecidableEq T] (h : HashIndex T) (v : T) (rowi : Nat) : HashIndex T :=
  ⟨bucketAdd v rowi h.map⟩

/-- Modelled from the spec: exact-equality lookup. -/
def HashIndex.lookup [DecidableEq T] (h : HashIndex T) (v : T) : List Nat :=
  bucketGet v h.map

/-- Total number of (value, row-id) pairs recorded in the index. -/
def HashIndex.total (h : HashIndex T) : Nat :=
  (h.map.map (fun e => e.2.length)).sum

/-- Modelled from the spec: the cost estimate of the hash index is the
total number of recorded rows divided by the number of distinct keys,
rounded up (conservative); `0` for an empty index. -/
def HashIndex.estimate (h : HashIndex T) : Nat :=
  if h.map.length = 0 then 0 else (h.total + h.map.length - 1) / h.map.length

/-- The `Index` sum type of the source holds any indexing strategy under
one column key; the only concrete implementation is the hash-based
equality index. -/
inductive Index (T : Type) where
  | Hash : HashIndex T → Index T
deriving DecidableEq

/-- `EqualityIndex::index` dispatched over the `Index` sum. -/
def Index.index [DecidableEq T] : Index T → T → Nat → Index T
  | .Hash h, v, rowi => .Hash (h.record v rowi)

/-- `EqualityIndex::lookup` dispatched over the `Index` sum. -/
def Index.lookup [DecidableEq T] : Index T → T → List Nat
  | .Hash h, v => h.lookup v

/-- `EqualityIndex::estimate` dispatched over the `Index` sum. -/
def Index.estimate : Index T → Nat
  | .Hash h => h.estimate

/-- The store of `src/src/lib.rs`: a column count fixed at construction,
the append-only row sequence, and the mapping from column number to
index (a Rust `HashMap`, modelled as an association list with unique
keys). -/
structure Store (T : Type) where
  cols : Nat
  rows : List (List T)
  indices : List (Nat × Index T)
deriving DecidableEq

/-- `Store::new`: an empty store with the given number of columns. -/
def Store.new {T : Type} (cols : Nat) : Store T :=
  ⟨cols, [], []⟩

/-- `Store::with_capacity`: the row-capacity hint is purely an allocation
optimization of `Vec::with_capacity` and has no observable effect. -/
def Store.withCapacity {T : Type} (cols _rowCapacityHint : Nat) : Store T :=
  ⟨cols, [], []⟩

/-- `HashMap::get` on the column-to-index mapping. -/
def assocGet (m : List (Nat × Index T)) (k : Nat) : Option (Index T) :=
  match m with
  | [] => none
  | e :: rest => if e.1 = k then some e.2 else assocGet rest k

/-- `HashMap::insert` on the column-to-index mapping: replaces any prior
entry for the key. -/
def assocPut (k : Nat) (v : Index T) : List (Nat × Index T) → List (Nat × Index T)
  | [] => [(k, v)]
  | e :: rest => if e.1 = k then (k, v) :: rest else e :: assocPut k v rest

/-- The result of `Store::insert`.  The source's `insert` returns unit and
panics on a contract violation; `panicked` models the abort and records
the state of the store at the moment the panic fires (for the
shape-mismatch assertion this is the unmodified store, since the
assertion precedes every mutation). -/
inductive InsertResult (T : Type) where
  | panicked : Store T → InsertResult T
  | ok : Store T → InsertResult T
deriving DecidableEq

/-- The index-maintenance loop of `Store::insert`: feed every attached
index the new row's value at the indexed column together with the new row
id.  `row[*column]` panics when the indexed column is out of range of the
row; the `error` result carries the partially updated mapping (the real
`HashMap` iteration order is unspecified; the model processes entries in
list order, and the state after this panic is never observable since the
process aborts). -/
def feedIndices [DecidableEq T] (row : List T) (rowi : Nat) :
    List (Nat × Index T) → Except (List (Nat × Index T)) (List (Nat × Index T))
  | [] => .ok []
  | e :: rest =>
    match row.get? e.1 with
    | none => .error (e :: rest)
    | some v =>
      match feedIndices row rowi rest with
      | .ok rest2 => .ok ((e.1, e.2.index v rowi) :: rest2)
      | .error rest2 => .error ((e.1, e.2.index v rowi) :: rest2)

/-- `Store::insert`: asserts the row shape, then feeds every attached
index, then appends the row.  The shape assertion `assert_eq!(row.len(),
self.cols)` fires before any mutation. -/
def Store.insert [DecidableEq T] (s : Store T) (row : List T) : InsertResult T :=
  if row.length = s.cols then
    match feedIndices row s.rows.length s.indices with
    | .ok idxs => .ok ⟨s.cols, s.rows ++ [row], idxs⟩
    | .error idxs => .panicked ⟨s.cols, s.rows, idxs⟩
  else .panicked s

/-- The back-fill loop of `Store::index`: feed the new index every
existing row's value at the indexed column, in ascending row-identifier
order.  `row[column]` panics (`none`) when the column is out of range of
a row. -/
def populate [DecidableEq T] (column : Nat) : Index T → Nat → List (List T) → Option (Index T)
  | idx, _, [] => some idx
  | idx, rowi, r :: rs =>
    match r.get? column with
    | none => none
    | some v => populate column (idx.index v rowi) (rowi + 1) rs

/-- `Store::index` (`add_index`): back-fill the indexer with every
existing row, then attach it for the column, replacing any prior index on
that column.  No bounds check is performed on `column`. -/
def Store.index [DecidableEq T] (s : Store T) (column : Nat) (indexer : Index T) :
    Option (Store T) :=
  match populate column indexer 0 s.rows with
  | none => none
  | some idx => some ⟨s.cols, s.rows, assocPut column idx s.indices⟩

/-- The candidate filter of `Store::find`: conditions whose column has an
attached index, in condition order, kept only when the comparison is
equality against a constant (`conds[ci].cmp` is re-read through `get?`;
the position always being in bounds is itself proved below). -/
def isEqConst (c : Condition T) : Bool :=
  match c.cmp with
  | .Equal (.Const _) => true

/-- The enumerated, filtered candidate list of `Store::find`. -/
def candidates [DecidableEq T] (s : Store T) (conds : List (Condition T)) :
    List (Nat × Index T) :=
  (conds.enum.filterMap
      (fun p => (assocGet s.indices p.2.column).map (fun idx => (p.1, idx)))).filter
    (fun q =>
      match conds.get? q.1 with
      | some c => isEqConst c
      | none => false)

/-- `Iterator::min_by_key`: the element with the minimum key; when several
elements are equally minimal, the first one. -/
def minByKeyFirst {α : Type} (key : α → Nat) : List α → Option α
  | [] => none
  | x :: xs =>
    some
      (match minByKeyFirst key xs with
      | none => x
      | some m => if key m < key x then m else x)

/-- The planner of `Store::find`: the candidate with the minimum cost
estimate, ties broken by condition order. -/
def planBest [DecidableEq T] (s : Store T) (conds : List (Condition T)) :
    Option (Nat × Index T) :=
  minByKeyFirst (fun q => q.2.estimate) (candidates s conds)

/-- `conds.iter().all(|c| c.matches(row))`: short-circuiting conjunction;
a panic in `matches` (`none`) propagates, but a condition evaluating to
`false` short-circuits before later conditions are evaluated. -/
def allMatch [DecidableEq T] (conds : List (Condition T)) (row : List T) : Option Bool :=
  match conds with
  | [] => some true
  | c :: cs =>
    match c.matches row with
    | none => none
    | some false => some false
    | some true => allMatch cs row

/-- The final stage of `Store::find`: map each candidate row identifier to
its row (`&self.rows[rowi]` panics on an out-of-range id) and keep the
rows on which every condition matches. -/
def scanFilter [DecidableEq T] (rows : List (List T)) (conds : List (Condition T)) :
    List Nat → Option (List (List T))
  | [] => some []
  | i :: is =>
    match rows.get? i with
    | none => none
    | some r =>
      match allMatch conds r with
      | none => none
      | some b =>
        match scanFilter rows conds is with
        | none => none
        | some rest => some (if b then r :: rest else rest)

/-- `Store::find`: select the best index-servable condition; narrow the
candidate row identifiers through its index's `lookup` (the source
asserts via `unreachable!()` that the selected condition is an equality
against a constant; re-reading `conds[ci]` out of bounds would panic,
modelled by `none`); without a candidate, fall back to a full scan; then
re-evaluate all conditions against each candidate row. -/
def Store.find [DecidableEq T] (s : Store T) (conds : List (Condition T)) :
    Option (List (List T)) :=
  match planBest s conds with
  | some q =>
    match conds.get? q.1 with
    | some c =>
      match c.cmp with
      | .Equal (.Const v) => scanFilter s.rows conds (q.2.lookup v)
    | none => none
  | none => scanFilter s.rows conds (List.range s.rows.length)

/-- Reference predicate: one condition holds of a row (total version of
`matches`, `false` on an out-of-range column). -/
def condHolds [DecidableEq T] (c : Condition T) (row : List T) : Bool :=
  match c.cmp with
  | .Equal (.Const v) => decide (row.get? c.column = some v)

/-- Reference predicate: every condition of the set holds of the row (the
empty set holds of every row). -/
def rowHolds [DecidableEq T] (conds : List (Condition T)) (row : List T) : Bool :=
  conds.all (fun c => condHolds c row)

/-- The row identifiers, starting at `start`, of the rows whose value at
`column` is `v`, in ascending order. -/
def matchingIdsFrom [DecidableEq T] (column : Nat) (v : T) : Nat → List (List T) → List Nat
  | _, [] => []
  | start, r :: rs =>
    (if r.get? column = some v then [start] else []) ++ matchingIdsFrom column v (start + 1) rs

/-- The store invariant: every row has the configured width, and every
attached index's bucket for every value is exactly the ascending list of
identifiers of the rows holding that value at the indexed column. -/
def Inv [DecidableEq T] (s : Store T) : Prop :=
  (∀ r ∈ s.rows, r.length = s.cols) ∧
  ∀ p ∈ s.indices, ∀ v : T, Index.lookup p.2 v = matchingIdsFrom p.1 v 0 s.rows

/-- The stores reachable through the public API: construction, successful
insertion, and attaching a fresh hash index. -/
inductive Reachable [DecidableEq T] : Store T → Prop where
  | new : ∀ cols, Reachable (Store.new cols)
  | withCapacity : ∀ cols hint, Reachable (Store.withCapacity cols hint)
  | insertStep : ∀ s row s2, Reachable s → Store.insert s row = .ok s2 → Reachable s2
  | indexStep : ∀ s col s2, Reachable s →
      Store.index s col (Index.Hash HashIndex.new) = some s2 → Reachable s2

/-- Insert a sequence of rows in order; a panic anywhere aborts. -/
def insertAll [DecidableEq T] (s : Store T) (rows : List (List T)) : Option (Store T) :=
  match rows with
  | [] => some s
  | r :: rs =>
    match Store.insert s r with
    | .ok s2 => insertAll s2 rs
    | .panicked _ => none

/-- Reference helper: the contribution of one candidate row identifier to
the result of `find` — its row, when present and passing every
condition. -/
def pickRow [DecidableEq T] (rows : List (List T)) (conds : List (Condition T)) (i : Nat) :
    Option (List T) :=
  match rows.get? i with
  | some r => if rowHolds conds r then some r else none
  | none => none

/-- The consecutive identifiers `start, start+1, ...`, one per element of
the list. -/
def idsFrom {α : Type} (start : Nat) : List α → List Nat
  | [] => []
  | _ :: rs => start :: idsFrom (start + 1) rs

section Lemmas

variable {T : Type} [DecidableEq T]

theorem bucketGet_bucketAdd (x : T) (rowi : Nat) (m : List (T × List Nat)) (v : T) :
    bucketGet v (bucketAdd x rowi m) = bucketGet v m ++ (if x = v then [rowi] else []) := by
  induction m with
  | nil => by_cases hxv : x = v <;> simp [bucketAdd, bucketGet, hxv]
  | cons e rest ih =>
    by_cases hex : e.1 = x
    · by_cases hev : e.1 = v
      · have hxv : x = v := hex ▸ hev
        simp [bucketAdd, bucketGet, hex, hev, hxv]
      · have hxv : ¬x = v := fun h => hev (hex.trans h)
        simp [bucketAdd, bucketGet, hex, hev, hxv]
    · by_cases hev : e.1 = v
      · have hxv : ¬x = v := fun h => hex (h ▸ hev)
        have hvx : ¬v = x := fun h => hxv h.symm
        simp [bucketAdd, bucketGet, hex, hev, hxv, hvx]
      · simp [bucketAdd, bucketGet, hex, hev, ih]

theorem Index.lookup_index (idx : Index T) (x : T) (rowi : Nat) (v : T) :
    (idx.index x rowi).lookup v = idx.lookup v ++ (if x = v then [rowi] else []) := by
  cases idx with
  | Hash h =>
    simp [Index.index, Index.lookup, HashIndex.record, HashIndex.lookup, bucketGet_bucketAdd]

theorem lookup_fresh (v : T) : (Index.Hash (HashIndex.new : HashIndex T)).lookup v = [] := rfl

theorem matchingIdsFrom_append (column : Nat) (v : T) (row : List T) :
    ∀ (rows : List (List T)) (start : Nat),
      matchingIdsFrom column v start (rows ++ [row]) =
        matchingIdsFrom column v start rows ++
          (if row.get? column = some v then [start + rows.length] else [])
  | [], start => by simp [matchingIdsFrom]
  | r :: rs, start => by
    have ih := matchingIdsFrom_append column v row rs (start + 1)
    have harith : start + 1 + rs.length = start + (r :: rs).length := by
      simp only [List.length_cons]; omega
    simp only [List.cons_append, matchingIdsFrom, List.append_eq, ih, harith,
      List.append_assoc]

theorem mem_matchingIdsFrom {column : Nat} {v : T} :
    ∀ {rows : List (List T)} {start j : Nat},
      j ∈ matchingIdsFrom column v start rows ↔
        ∃ i, j = start + i ∧ ((rows.get? i).bind (fun r => r.get? column)) = some v := by
  intro rows
  induction rows with
  | nil => intro start j; simp [matchingIdsFrom]
  | cons r rs ih =>
    intro start j
    simp only [matchingIdsFrom, List.mem_append]
    constructor
    · intro hj
      rcases hj with hj | hj
      · by_cases hc : r.get? column = some v
        · rw [if_pos hc] at hj
          have hjs : j = start := by simpa using hj
          exact ⟨0, by omega, hc⟩
        · rw [if_neg hc] at hj
          simp at hj
      · rcases ih.1 hj with ⟨i, hji, hcell⟩
        exact ⟨i + 1, by omega, hcell⟩
    · rintro ⟨i, hji, hcell⟩
      cases i with
      | zero =>
        left
        have hc : r.get? column = some v := hcell
        rw [if_pos hc]
        simp [hji]
      | succ i =>
        right
        exact ih.2 ⟨i, by omega, hcell⟩

theorem feedIndices_ok_mem {row : List T} {rowi : Nat} :
    ∀ {m m2 : List (Nat × Index T)}, feedIndices row rowi m = .ok m2 →
      ∀ p2 ∈ m2, ∃ p, p ∈ m ∧ ∃ x, p2.1 = p.1 ∧ row.get? p.1 = some x ∧
        p2.2 = p.2.index x rowi := by
  intro m
  induction m with
  | nil =>
    intro m2 h p2 hp2
    simp only [feedIndices] at h
    cases h; simp at hp2
  | cons e rest ih =>
    intro m2 h p2 hp2
    simp only [feedIndices] at h
    cases hre : row.get? e.1 with
    | none => rw [hre] at h; cases h
    | some x =>
      rw [hre] at h
      cases hrest : feedIndices row rowi rest with
      | error r2 => rw [hrest] at h; cases h
      | ok rest2 =>
        rw [hrest] at h
        cases h
        rcases List.mem_cons.1 hp2 with hp2 | hp2
        · subst hp2
          exact ⟨e, List.mem_cons_self _ _, x, rfl, hre, rfl⟩
        · rcases ih hrest p2 hp2 with ⟨p, hpm, hx⟩
          exact ⟨p, List.mem_cons_of_mem _ hpm, hx⟩

theorem feedIndices_ok_keys {row : List T} {rowi : Nat} :
    ∀ {m m2 : List (Nat × Index T)}, feedIndices row rowi m = .ok m2 →
      m2.map (fun p => p.1) = m.map (fun p => p.1) := by
  intro m
  induction m with
  | nil => intro m2 h; simp only [feedIndices] at h; cases h; rfl
  | cons e rest ih =>
    intro m2 h
    simp only [feedIndices] at h
    cases hre : row.get? e.1 with
    | none => rw [hre] at h; cases h
    | some x =>
      rw [hre] at h
      cases hrest : feedIndices row rowi rest with
      | error r2 => rw [hrest] at h; cases h
      | ok rest2 =>
        rw [hrest] at h
        cases h
        simp [ih hrest]

theorem feedIndices_ok_exists {row : List T} {rowi : Nat} :
    ∀ {m : List (Nat × Index T)}, (∀ p ∈ m, p.1 < row.length) →
      ∃ m2, feedIndices row rowi m = .ok m2 := by
  intro m
  induction m with
  | nil => intro _; exact ⟨[], rfl⟩
  | cons e rest ih =>
    intro hb
    have he : e.1 < row.length := hb e (List.mem_cons_self _ _)
    rcases ih (fun p hp => hb p (List.mem_cons_of_mem _ hp)) with ⟨rest2, hrest⟩
    refine ⟨(e.1, e.2.index (row.get ⟨e.1, he⟩) rowi) :: rest2, ?_⟩
    simp only [feedIndices, List.get?_eq_get he, hrest]

theorem insert_ok_elim {s : Store T} {row : List T} {s2 : Store T}
    (h : Store.insert s row = .ok s2) :
    row.length = s.cols ∧ ∃ idxs, feedIndices row s.rows.length s.indices = .ok idxs ∧
      s2 = ⟨s.cols, s.rows ++ [row], idxs⟩ := by
  by_cases hl : row.length = s.cols
  · refine ⟨hl, ?_⟩
    simp only [Store.insert, if_pos hl] at h
    cases hfeed : feedIndices row s.rows.length s.indices with
    | error idxs => rw [hfeed] at h; cases h
    | ok idxs => rw [hfeed] at h; cases h; exact ⟨idxs, rfl, rfl⟩
  · simp only [Store.insert, if_neg hl] at h; cases h

theorem insert_ok_exists {s : Store T} {row : List T} (hl : row.length = s.cols)
    (hb : ∀ p ∈ s.indices, p.1 < row.length) : ∃ s2, Store.insert s row = .ok s2 := by
  rcases @feedIndices_ok_exists T _ row s.rows.length s.indices hb with ⟨m2, hm2⟩
  exact ⟨⟨s.cols, s.rows ++ [row], m2⟩, by simp only [Store.insert, if_pos hl, hm2]⟩

theorem populate_lookup {column : Nat} :
    ∀ {rows : List (List T)} {idx idx2 : Index T} {start : Nat},
      populate column idx start rows = some idx2 →
      ∀ v, idx2.lookup v = idx.lookup v ++ matchingIdsFrom column v start rows := by
  intro rows
  induction rows with
  | nil =>
    intro idx idx2 start h v
    simp only [populate] at h
    cases h; simp [matchingIdsFrom]
  | cons r rs ih =>
    intro idx idx2 start h v
    simp only [populate] at h
    cases hrc : r.get? column with
    | none => rw [hrc] at h; cases h
    | some x =>
      rw [hrc] at h
      have := ih h v
      rw [this, Index.lookup_index]
      simp only [matchingIdsFrom, hrc, List.append_assoc]
      by_cases hxv : x = v <;> simp [hxv]

theorem populate_exists {column : Nat} {rows : List (List T)}
    (hcol : ∀ r ∈ rows, column < r.length) :
    ∀ idx start, ∃ idx2, populate column idx start rows = some idx2 := by
  induction rows with
  | nil => intro idx start; exact ⟨idx, rfl⟩
  | cons r rs ih =>
    intro idx start
    have hr : column < r.length := hcol r (List.mem_cons_self _ _)
    rcases ih (fun r hr => hcol r (List.mem_cons_of_mem _ hr))
        (idx.index (r.get ⟨column, hr⟩) start) (start + 1) with ⟨idx2, hidx2⟩
    exact ⟨idx2, by simp only [populate, List.get?_eq_get hr, hidx2]⟩

theorem index_some_elim {s : Store T} {col : Nat} {indexer : Index T} {s2 : Store T}
    (h : Store.index s col indexer = some s2) :
    ∃ idx2, populate col indexer 0 s.rows = some idx2 ∧
      s2 = ⟨s.cols, s.rows, assocPut col idx2 s.indices⟩ := by
  simp only [Store.index] at h
  cases hpop : populate col indexer 0 s.rows with
  | none => rw [hpop] at h; cases h
  | some idx2 => rw [hpop] at h; cases h; exact ⟨idx2, rfl, rfl⟩

omit [DecidableEq T] in
theorem assocGet_mem : ∀ {m : List (Nat × Index T)} {k : Nat} {idx : Index T},
    assocGet m k = some idx → (k, idx) ∈ m := by
  intro m
  induction m with
  | nil => intro k idx h; cases h
  | cons e rest ih =>
    intro k idx h
    simp only [assocGet] at h
    by_cases hek : e.1 = k
    · rw [if_pos hek] at h
      cases h
      exact List.mem_cons.2 (Or.inl (by rw [← hek]))
    · rw [if_neg hek] at h
      exact List.mem_cons_of_mem _ (ih h)

omit [DecidableEq T] in
theorem mem_assocPut : ∀ {m : List (Nat × Index T)} {k : Nat} {v : Index T}
    {p : Nat × Index T}, p ∈ assocPut k v m → p = (k, v) ∨ p ∈ m := by
  intro m
  induction m with
  | nil => intro k v p h; simp [assocPut] at h; exact Or.inl h
  | cons e rest ih =>
    intro k v p h
    simp only [assocPut] at h
    by_cases hek : e.1 = k
    · rw [if_pos hek] at h
      rcases List.mem_cons.1 h with h | h
      · exact Or.inl h
      · exact Or.inr (List.mem_cons_of_mem _ h)
    · rw [if_neg hek] at h
      rcases List.mem_cons.1 h with h | h
      · exact Or.inr (List.mem_cons.2 (Or.inl h))
      · rcases ih h with h | h
        · exact Or.inl h
        · exact Or.inr (List.mem_cons_of_mem _ h)

theorem inv_new (cols : Nat) : Inv (Store.new cols : Store T) :=
  ⟨fun r hr => absurd hr (List.not_mem_nil r), fun p hp _ => absurd hp (List.not_mem_nil p)⟩

theorem inv_insert {s s2 : Store T} {row : List T} (hInv : Inv s)
    (h : Store.insert s row = .ok s2) : Inv s2 := by
  rcases insert_ok_elim h with ⟨hl, idxs, hfeed, hs2⟩
  subst hs2
  refine ⟨?_, ?_⟩
  · intro r hr
    rcases List.mem_append.1 hr with hr | hr
    · exact hInv.1 r hr
    · rw [List.mem_singleton.1 hr]; exact hl
  · intro p hp v
    rcases feedIndices_ok_mem hfeed p hp with ⟨p0, hp0, x, hkey, hget, hidx⟩
    have hsync := hInv.2 p0 hp0 v
    rw [hidx, Index.lookup_index, hsync, hkey, matchingIdsFrom_append]
    congr 1
    rw [hget, Nat.zero_add]
    by_cases hxv : x = v
    · rw [if_pos hxv, if_pos (by rw [hxv])]
    · rw [if_neg hxv, if_neg (fun hh => hxv (Option.some_inj.1 hh))]

theorem inv_index {s s2 : Store T} {col : Nat} (hInv : Inv s)
    (h : Store.index s col (Index.Hash HashIndex.new) = some s2) : Inv s2 := by
  rcases index_some_elim h with ⟨idx2, hpop, hs2⟩
  subst hs2
  refine ⟨fun r hr => hInv.1 r hr, ?_⟩
  intro p hp v
  rcases mem_assocPut hp with hp | hp
  · subst hp
    show Index.lookup idx2 v = matchingIdsFrom col v 0 s.rows
    rw [populate_lookup hpop v, lookup_fresh, List.nil_append]
  · exact hInv.2 p hp v

theorem reachable_inv {s : Store T} (h : Reachable s) : Inv s := by
  induction h with
  | new cols => exact inv_new cols
  | withCapacity cols hint => exact inv_new cols
  | insertStep s row s2 hr hok ih => exact inv_insert ih hok
  | indexStep s col s2 hr hidx ih => exact inv_index ih hidx

theorem matches_eq_condHolds {c : Condition T} {row : List T} (hcol : c.column < row.length) :
    c.matches row = some (condHolds c row) := by
  obtain ⟨x, hx⟩ : ∃ x, row.get? c.column = some x := ⟨_, List.get?_eq_get hcol⟩
  cases hcmp : c.cmp with
  | Equal val =>
    cases val with
    | Const v =>
      simp only [Condition.matches, condHolds, hcmp]
      rw [hx, Option.map_some']
      congr 1
      rw [decide_eq_decide]
      exact ⟨fun h => by rw [h], fun h => Option.some_inj.1 h⟩

theorem allMatch_eq {conds : List (Condition T)} {row : List T}
    (hc : ∀ c ∈ conds, c.column < row.length) :
    allMatch conds row = some (rowHolds conds row) := by
  induction conds with
  | nil => rfl
  | cons c cs ih =>
    have hm := matches_eq_condHolds (hc c (List.mem_cons_self _ _))
    have ihh := ih (fun c2 hc2 => hc c2 (List.mem_cons_of_mem _ hc2))
    simp only [allMatch, hm]
    cases hb : condHolds c row with
    | false => simp [rowHolds, hb]
    | true => simp [rowHolds, hb, ihh]

theorem scanFilter_eq {rows : List (List T)} {conds : List (Condition T)} :
    ∀ {ids : List Nat},
      (∀ i ∈ ids, ∃ r, rows.get? i = some r ∧ ∀ c ∈ conds, c.column < r.length) →
      scanFilter rows conds ids = some (ids.filterMap (pickRow rows conds)) := by
  intro ids
  induction ids with
  | nil => intro _; rfl
  | cons i is ih =>
    intro hw
    rcases hw i (List.mem_cons_self _ _) with ⟨r, hri, hcl⟩
    have hall := allMatch_eq hcl
    have ihh := ih (fun j hj => hw j (List.mem_cons_of_mem _ hj))
    simp only [scanFilter, hri, hall, ihh, List.filterMap_cons, pickRow]
    cases hb : rowHolds conds r with
    | false => simp [hb]
    | true => simp [hb]

theorem idsFrom_filterMap_pick {conds : List (Condition T)} :
    ∀ {rows : List (List T)} {rows0 : List (List T)} {start : Nat},
      (∀ j, rows0.get? (start + j) = rows.get? j) →
      (idsFrom start rows).filterMap (pickRow rows0 conds) =
        rows.filterMap (fun r => if rowHolds conds r then some r else none) := by
  intro rows
  induction rows with
  | nil => intro rows0 start _; rfl
  | cons r rs ih =>
    intro rows0 start hsuf
    have h0 : rows0.get? start = some r := by
      have h00 := hsuf 0
      simpa using h00
    have hsuf2 : ∀ j, rows0.get? (start + 1 + j) = rs.get? j := by
      intro j
      have e : start + 1 + j = start + (j + 1) := by omega
      rw [e]
      exact hsuf (j + 1)
    simp only [idsFrom, List.filterMap_cons, pickRow, h0, ih hsuf2]

theorem matchingIdsFrom_filterMap_pick {conds : List (Condition T)} {column : Nat} {v : T} :
    ∀ {rows : List (List T)} {rows0 : List (List T)} {start : Nat},
      (∀ j, rows0.get? (start + j) = rows.get? j) →
      (matchingIdsFrom column v start rows).filterMap (pickRow rows0 conds) =
        rows.filterMap (fun r =>
          if r.get? column = some v then
            (if rowHolds conds r then some r else none)
          else none) := by
  intro rows
  induction rows with
  | nil => intro rows0 start _; rfl
  | cons r rs ih =>
    intro rows0 start hsuf
    have h0 : rows0.get? start = some r := by
      have h00 := hsuf 0
      simpa using h00
    have hsuf2 : ∀ j, rows0.get? (start + 1 + j) = rs.get? j := by
      intro j
      have e : start + 1 + j = start + (j + 1) := by omega
      rw [e]
      exact hsuf (j + 1)
    simp only [matchingIdsFrom, List.filterMap_append, List.filterMap_cons, ih hsuf2]
    by_cases hcv : r.get? column = some v
    · rw [if_pos hcv, if_pos hcv]
      simp only [List.filterMap_cons, List.filterMap_nil, pickRow, h0]
      cases hb : rowHolds conds r with
      | false => simp [hb]
      | true => simp [hb]
    · rw [if_neg hcv, if_neg hcv]
      simp

theorem filterMap_if_all (rows : List (List T)) (conds : List (Condition T)) :
    rows.filterMap (fun r => if rowHolds conds r then some r else none) =
      rows.filter (fun r => rowHolds conds r) := by
  induction rows with
  | nil => rfl
  | cons r rs ih =>
    simp only [List.filterMap_cons, List.filter_cons]
    cases hb : rowHolds conds r <;> simp [hb, ih]

theorem filterMap_if_absorb {conds : List (Condition T)} {v : T}
    {c : Condition T} (hc : c ∈ conds) (hcmp : c.cmp = .Equal (.Const v)) :
    ∀ rows : List (List T),
      rows.filterMap (fun r =>
          if r.get? c.column = some v then
            (if rowHolds conds r then some r else none)
          else none) =
        rows.filter (fun r => rowHolds conds r) := by
  intro rows
  induction rows with
  | nil => rfl
  | cons r rs ih =>
    have key : rowHolds conds r = true → r.get? c.column = some v := by
      intro hall
      have hcr : condHolds c r = true := List.all_eq_true.1 hall c hc
      rw [condHolds, hcmp] at hcr
      exact of_decide_eq_true hcr
    cases hb : rowHolds conds r with
    | true =>
      have hcv := key hb
      simp only [List.filterMap_cons, List.filter_cons, if_pos hcv, if_pos hb, ih]
    | false =>
      have hnb : ¬rowHolds conds r = true := by rw [hb]; decide
      by_cases hcv : r.get? c.column = some v
      · simp only [List.filterMap_cons, List.filter_cons, if_pos hcv, if_neg hnb, ih]
      · simp only [List.filterMap_cons, List.filter_cons, if_neg hcv, if_neg hnb, ih]

theorem idsFrom_shift {α : Type} : ∀ (rows : List α) (start : Nat),
    idsFrom (start + 1) rows = (idsFrom start rows).map (fun n => n + 1)
  | [], _ => rfl
  | r :: rs, start => by
    simp only [idsFrom, List.map_cons, idsFrom_shift rs (start + 1)]

theorem idsFrom_zero_eq_range {α : Type} : ∀ (rows : List α),
    idsFrom 0 rows = List.range rows.length
  | [] => rfl
  | r :: rs => by
    rw [List.length_cons, List.range_succ_eq_map]
    simp only [idsFrom, idsFrom_shift, idsFrom_zero_eq_range rs]

theorem minByKeyFirst_mem {α : Type} {key : α → Nat} :
    ∀ {l : List α} {x : α}, minByKeyFirst key l = some x → x ∈ l := by
  intro l
  induction l with
  | nil => intro x h; cases h
  | cons a as ih =>
    intro x h
    cases hm : minByKeyFirst key as with
    | none =>
      simp only [minByKeyFirst, hm] at h
      cases h; exact List.mem_cons_self _ _
    | some m =>
      simp only [minByKeyFirst, hm] at h
      by_cases hlt : key m < key a
      · rw [if_pos hlt] at h; cases h; exact List.mem_cons_of_mem _ (ih hm)
      · rw [if_neg hlt] at h; cases h; exact List.mem_cons_self _ _

theorem minByKeyFirst_min {α : Type} {key : α → Nat} :
    ∀ {l : List α} {x : α}, minByKeyFirst key l = some x → ∀ y ∈ l, key x ≤ key y := by
  intro l
  induction l with
  | nil => intro x h; cases h
  | cons a as ih =>
    intro x h y hy
    cases hm : minByKeyFirst key as with
    | none =>
      simp only [minByKeyFirst, hm] at h
      cases h
      cases as with
      | nil =>
        rcases List.mem_cons.1 hy with hy | hy
        · rw [hy]
        · cases hy
      | cons b bs => simp [minByKeyFirst] at hm
    | some m =>
      simp only [minByKeyFirst, hm] at h
      by_cases hlt : key m < key a
      · rw [if_pos hlt] at h; cases h
        rcases List.mem_cons.1 hy with hy | hy
        · rw [hy]; exact Nat.le_of_lt hlt
        · exact ih hm y hy
      · rw [if_neg hlt] at h; cases h
        rcases List.mem_cons.1 hy with hy | hy
        · rw [hy]
        · exact Nat.le_trans (Nat.le_of_not_lt hlt) (ih hm y hy)

theorem minByKeyFirst_first {α : Type} {key : α → Nat} :
    ∀ {l : List α} {x : α}, minByKeyFirst key l = some x →
      ∃ l1 l2, l = l1 ++ x :: l2 ∧ ∀ y ∈ l1, key x < key y := by
  intro l
  induction l with
  | nil => intro x h; cases h
  | cons a as ih =>
    intro x h
    cases hm : minByKeyFirst key as with
    | none =>
      simp only [minByKeyFirst, hm] at h
      cases h
      exact ⟨[], as, rfl, by intro y hy; cases hy⟩
    | some m =>
      simp only [minByKeyFirst, hm] at h
      by_cases hlt : key m < key a
      · rw [if_pos hlt] at h; cases h
        rcases ih hm with ⟨l1, l2, hsplit, hgt⟩
        refine ⟨a :: l1, l2, by rw [hsplit]; rfl, ?_⟩
        intro y hy
        rcases List.mem_cons.1 hy with hy | hy
        · rw [hy]; exact hlt
        · exact hgt y hy
      · rw [if_neg hlt] at h; cases h
        exact ⟨[], as, rfl, by intro y hy; cases hy⟩

theorem mem_enumFrom_get? {α : Type} :
    ∀ {l : List α} {n : Nat} {p : Nat × α}, p ∈ l.enumFrom n →
      n ≤ p.1 ∧ l.get? (p.1 - n) = some p.2 := by
  intro l
  induction l with
  | nil => intro n p h; cases h
  | cons a as ih =>
    intro n p h
    simp only [List.enumFrom] at h
    rcases List.mem_cons.1 h with h | h
    · subst h
      exact ⟨Nat.le_refl _, by simp⟩
    · rcases ih h with ⟨hle, hget⟩
      refine ⟨by omega, ?_⟩
      have e : p.1 - n = (p.1 - (n + 1)) + 1 := by omega
      rw [e]
      simpa using hget

theorem mem_enum_get? {α : Type} {l : List α} {p : Nat × α} (h : p ∈ l.enum) :
    l.get? p.1 = some p.2 := by
  have h2 : p ∈ l.enumFrom 0 := h
  have h3 := (mem_enumFrom_get? h2).2
  simpa using h3

theorem pairwise_enumFrom {α : Type} :
    ∀ (l : List α) (n : Nat), (l.enumFrom n).Pairwise (fun p q => p.1 < q.1)
  | [], _ => List.Pairwise.nil
  | a :: as, n => by
    simp only [List.enumFrom]
    refine List.Pairwise.cons ?_ (pairwise_enumFrom as (n + 1))
    intro q hq
    have hle := (mem_enumFrom_get? hq).1
    show n < q.1
    omega

theorem pairwise_filterMap_fst {α β : Type} {f : Nat × α → Option (Nat × β)}
    (hf : ∀ p q, f p = some q → q.1 = p.1) :
    ∀ {l : List (Nat × α)}, l.Pairwise (fun p q => p.1 < q.1) →
      (l.filterMap f).Pairwise (fun p q => p.1 < q.1) := by
  intro l
  induction l with
  | nil => intro _; simp
  | cons a as ih =>
    intro hp
    rcases List.pairwise_cons.1 hp with ⟨ha, has⟩
    simp only [List.filterMap_cons]
    cases hfa : f a with
    | none => exact ih has
    | some b =>
      refine List.Pairwise.cons ?_ (ih has)
      intro q hq
      rcases List.mem_filterMap.1 hq with ⟨p, hpmem, hfp⟩
      rw [hf a b hfa, hf p q hfp]
      exact ha p hpmem

theorem candidates_pairwise {s : Store T} {conds : List (Condition T)} :
    (candidates s conds).Pairwise (fun p q => p.1 < q.1) := by
  apply List.Pairwise.sublist (List.filter_sublist _)
  apply pairwise_filterMap_fst
  · intro p q h
    cases ha : assocGet s.indices p.2.column with
    | none => rw [ha] at h; cases h
    | some idx => rw [ha] at h; cases h; rfl
  · have hp := pairwise_enumFrom conds 0
    exact hp

theorem candidates_spec {s : Store T} {conds : List (Condition T)} {q : Nat × Index T}
    (hq : q ∈ candidates s conds) :
    ∃ c v, conds.get? q.1 = some c ∧ c.cmp = Comparison.Equal (Value.Const v) ∧
      assocGet s.indices c.column = some q.2 := by
  rcases List.mem_filter.1 hq with ⟨hfm, hpred⟩
  cases hgc : conds.get? q.1 with
  | none => rw [hgc] at hpred; cases hpred
  | some c =>
    rw [hgc] at hpred
    rcases List.mem_filterMap.1 hfm with ⟨p, hpmem, hfp⟩
    rcases Option.map_eq_some'.1 hfp with ⟨idx, ha, hpq⟩
    have hq1 : q.1 = p.1 := by rw [← hpq]
    have hq2 : q.2 = idx := by rw [← hpq]
    have hgp : conds.get? p.1 = some p.2 := mem_enum_get? hpmem
    have hgc2 : conds.get? p.1 = some c := by rw [← hq1]; exact hgc
    have hcp : c = p.2 := by
      rw [hgc2] at hgp
      exact Option.some_inj.1 hgp
    cases hcmp : c.cmp with
    | Equal val =>
      cases val with
      | Const v =>
        refine ⟨c, v, rfl, by rw [hcmp], ?_⟩
        rw [hq2, hcp]
        exact ha

theorem planBest_mem {s : Store T} {conds : List (Condition T)} {q : Nat × Index T}
    (h : planBest s conds = some q) : q ∈ candidates s conds :=
  @minByKeyFirst_mem (Nat × Index T) (fun q2 => q2.2.estimate) (candidates s conds) q h

theorem find_eq_of_plan_none {s : Store T} {conds : List (Condition T)}
    (h : planBest s conds = none) :
    Store.find s conds = scanFilter s.rows conds (List.range s.rows.length) := by
  simp only [Store.find, h]

theorem find_eq_of_plan_some {s : Store T} {conds : List (Condition T)} {q : Nat × Index T}
    (h : planBest s conds = some q) {c : Condition T} {v : T}
    (hgc : conds.get? q.1 = some c) (hcmp : c.cmp = Comparison.Equal (Value.Const v)) :
    Store.find s conds = scanFilter s.rows conds (q.2.lookup v) := by
  simp only [Store.find, h, hgc, hcmp]

theorem find_spec {s : Store T} {conds : List (Condition T)} (hInv : Inv s)
    (hc : ∀ c ∈ conds, c.column < s.cols) :
    Store.find s conds = some (s.rows.filter (fun r => rowHolds conds r)) := by
  have hwAll : ∀ i r, s.rows.get? i = some r → ∀ c2 ∈ conds, c2.column < r.length := by
    intro i r hri c2 hcm
    have hrmem : r ∈ s.rows := List.get?_mem hri
    rw [hInv.1 r hrmem]
    exact hc c2 hcm
  have hsuf0 : ∀ j, s.rows.get? (0 + j) = s.rows.get? j := by
    intro j; rw [Nat.zero_add]
  cases hplan : planBest s conds with
  | none =>
    have hw : ∀ i ∈ List.range s.rows.length,
        ∃ r, s.rows.get? i = some r ∧ ∀ c2 ∈ conds, c2.column < r.length := by
      intro i hi
      have hlt : i < s.rows.length := List.mem_range.1 hi
      exact ⟨_, List.get?_eq_get hlt, hwAll i _ (List.get?_eq_get hlt)⟩
    rw [find_eq_of_plan_none hplan, scanFilter_eq hw]
    congr 1
    rw [← idsFrom_zero_eq_range, idsFrom_filterMap_pick hsuf0]
    exact filterMap_if_all _ _
  | some q =>
    rcases candidates_spec (planBest_mem hplan) with ⟨c, v, hgc, hcmp, hassoc⟩
    rw [find_eq_of_plan_some hplan hgc hcmp]
    have hmem : (c.column, q.2) ∈ s.indices := assocGet_mem hassoc
    have hsync : Index.lookup q.2 v = matchingIdsFrom c.column v 0 s.rows :=
      hInv.2 (c.column, q.2) hmem v
    rw [show q.2.lookup v = Index.lookup q.2 v from rfl, hsync]
    have hw : ∀ i ∈ matchingIdsFrom c.column v 0 s.rows,
        ∃ r, s.rows.get? i = some r ∧ ∀ c2 ∈ conds, c2.column < r.length := by
      intro i hi
      rcases mem_matchingIdsFrom.1 hi with ⟨i0, hi0, hcell⟩
      have hii : i = i0 := by omega
      subst hii
      cases hri : s.rows.get? i with
      | none => rw [hri] at hcell; cases hcell
      | some r => exact ⟨r, rfl, hwAll i r hri⟩
    rw [scanFilter_eq hw]
    congr 1
    rw [matchingIdsFrom_filterMap_pick hsuf0]
    exact filterMap_if_absorb (List.get?_mem hgc) hcmp s.rows

theorem allMatch_true_all {conds : List (Condition T)} {row : List T} :
    allMatch conds row = some true → ∀ c ∈ conds, c.matches row = some true := by
  induction conds with
  | nil => intro _ c hc; cases hc
  | cons c0 cs ih =>
    intro h c hc
    cases hm : c0.matches row with
    | none => simp [allMatch, hm] at h
    | some b =>
      cases b with
      | false => simp [allMatch, hm] at h
      | true =>
        simp only [allMatch, hm] at h
        rcases List.mem_cons.1 hc with hc | hc
        · rw [hc]; exact hm
        · exact ih h c hc

theorem scanFilter_mem {rows : List (List T)} {conds : List (Condition T)} :
    ∀ {ids : List Nat} {out : List (List T)}, scanFilter rows conds ids = some out →
      ∀ r ∈ out, allMatch conds r = some true := by
  intro ids
  induction ids with
  | nil =>
    intro out h r hr
    cases h
    cases hr
  | cons i is ih =>
    intro out h r hr
    cases hri : rows.get? i with
    | none =>
      simp only [scanFilter, hri] at h
      exact Option.noConfusion h
    | some r0 =>
      cases hall : allMatch conds r0 with
      | none =>
        simp only [scanFilter, hri, hall] at h
        exact Option.noConfusion h
      | some b =>
        cases hrest : scanFilter rows conds is with
        | none =>
          simp only [scanFilter, hri, hall, hrest] at h
          exact Option.noConfusion h
        | some rest =>
          simp only [scanFilter, hri, hall, hrest] at h
          cases b with
          | true =>
            simp only [if_pos rfl] at h
            cases h
            rcases List.mem_cons.1 hr with hr2 | hr2
            · rw [hr2]; exact hall
            · exact ih hrest r hr2
          | false =>
            simp only [Bool.false_eq_true, if_neg] at h
            cases h
            exact ih hrest r hr

theorem insertAll_reachable {rows : List (List T)} :
    ∀ {s s2 : Store T}, Reachable s → insertAll s rows = some s2 → Reachable s2 := by
  induction rows with
  | nil => intro s s2 hr h; cases h; exact hr
  | cons r rs ih =>
    intro s s2 hr h
    cases hins : Store.insert s r with
    | panicked s3 => simp [insertAll, hins] at h
    | ok s3 =>
      simp only [insertAll, hins] at h
      exact ih (Reachable.insertStep s r s3 hr hins) h

theorem insertAll_ok {cols : Nat} :
    ∀ {rows : List (List T)} {s : Store T}, s.cols = cols →
      (∀ r ∈ rows, r.length = cols) → (∀ p ∈ s.indices, p.1 < cols) →
      ∃ s2, insertAll s rows = some s2 ∧ s2.cols = cols ∧ s2.rows = s.rows ++ rows ∧
        (∀ p ∈ s2.indices, p.1 < cols) := by
  intro rows
  induction rows with
  | nil => intro s hcols hwf hidx; exact ⟨s, rfl, hcols, by simp, hidx⟩
  | cons r rs ih =>
    intro s hcols hwf hidx
    have hrl : r.length = s.cols := by rw [hcols]; exact hwf r (List.mem_cons_self _ _)
    have hb : ∀ p ∈ s.indices, p.1 < r.length := by
      intro p hp
      rw [hwf r (List.mem_cons_self _ _)]
      exact hidx p hp
    rcases insert_ok_exists hrl hb with ⟨s3, hs3⟩
    rcases insert_ok_elim hs3 with ⟨hl, idxs, hfeed, hs3eq⟩
    have hkeys := feedIndices_ok_keys hfeed
    subst hs3eq
    have hidx3 : ∀ p ∈ idxs, p.1 < cols := by
      intro p hp
      have hmm : p.1 ∈ idxs.map (fun p2 => p2.1) := List.mem_map_of_mem _ hp
      rw [hkeys] at hmm
      rcases List.mem_map.1 hmm with ⟨p0, hp0, he⟩
      rw [← he]
      exact hidx p0 hp0
    have hcols2 : (⟨s.cols, s.rows ++ [r], idxs⟩ : Store T).cols = cols := hcols
    rcases ih hcols2 (fun r2 hr2 => hwf r2 (List.mem_cons_of_mem _ hr2)) hidx3 with
      ⟨s2, hall, hc2, hrows2, hi2⟩
    refine ⟨s2, ?_, hc2, ?_, hi2⟩
    · simp only [insertAll, hs3]
      exact hall
    · rw [hrows2]
      simp

theorem find_scanFilter {s : Store T} {conds : List (Condition T)} {out : List (List T)}
    (h : Store.find s conds = some out) :
    ∃ ids, scanFilter s.rows conds ids = some out := by
  cases hplan : planBest s conds with
  | none =>
    rw [find_eq_of_plan_none hplan] at h
    exact ⟨_, h⟩
  | some q =>
    cases hgc : conds.get? q.1 with
    | none =>
      simp only [Store.find, hplan, hgc] at h
      exact Option.noConfusion h
    | some c =>
      cases hcmp : c.cmp with
      | Equal val =>
        cases val with
        | Const v =>
          rw [find_eq_of_plan_some hplan hgc hcmp] at h
          exact ⟨_, h⟩

theorem candidates_of_no_indices {s : Store T} {conds : List (Condition T)}
    (h : s.indices = []) : candidates s conds = [] := by
  have hnil : conds.enum.filterMap
      (fun p => (assocGet s.indices p.2.column).map (fun idx => (p.1, idx))) = [] := by
    apply List.filterMap_eq_nil_iff.2
    intro p hp
    rw [h]
    rfl
  simp only [candidates, hnil, List.filter_nil]

end Lemmas

section Claims

variable {T : Type}

/-- C1: for every store and every condition list `conds` in which each
condition's column is less than the store's column count, every row
yielded by `find(conds)` satisfies every condition in `conds` (with an
empty condition list every row matches, so the claim is vacuously true
there).  The final re-check of all conditions inside `find` guarantees
this for every store, indexed or not. -/
theorem find_sound [DecidableEq T] (s : Store T) (conds : List (Condition T))
    (_hcols : ∀ c ∈ conds, c.column < s.cols) (out : List (List T))
    (hfind : Store.find s conds = some out) :
    ∀ r ∈ out, ∀ c ∈ conds, c.matches r = some true := by
  intro r hr c hc
  rcases find_scanFilter hfind with ⟨ids, hscan⟩
  exact allMatch_true_all (scanFilter_mem hscan r hr) c hc

/-- Witness for C1: on a concrete two-column store, the single row yielded
by an equality query satisfies the condition. -/
theorem find_sound_w :
    Condition.matches (⟨0, Comparison.Equal (Value.Const 1)⟩ : Condition Nat) [1, 2] =
      some true :=
  find_sound (⟨2, [[1, 2], [3, 4]], []⟩ : Store Nat)
    [⟨0, Comparison.Equal (Value.Const 1)⟩] (by decide) [[1, 2]] (by decide) [1, 2] (by decide)
    ⟨0, Comparison.Equal (Value.Const 1)⟩ (by decide)

/-- C2: on every store (every store arises through the public API, the
modelled `Reachable`; the fields of `Store` are private in the source)
whose condition columns are all in range, `find` yields exactly the
in-order filtering of the row sequence by the full condition set: every
row satisfying all conditions is yielded exactly once — never dropped
when an index narrows the candidate scan, and never yielded twice. -/
theorem find_complete_exactly_once [DecidableEq T] (s : Store T)
    (conds : List (Condition T)) (hreach : Reachable s)
    (hcols : ∀ c ∈ conds, c.column < s.cols) :
    Store.find s conds = some (s.rows.filter (fun r => rowHolds conds r)) :=
  find_spec (reachable_inv hreach) hcols

/-- Witness for C2: a store reached by two inserts and a late index on
column 0, queried through that index. -/
theorem find_complete_exactly_once_w :
    Store.find (⟨2, [[5, 1], [6, 2]], [(0, Index.Hash ⟨[(5, [0]), (6, [1])]⟩)]⟩ : Store Nat)
        [⟨0, Comparison.Equal (Value.Const 5)⟩] =
      some (((⟨2, [[5, 1], [6, 2]],
          [(0, Index.Hash ⟨[(5, [0]), (6, [1])]⟩)]⟩ : Store Nat)).rows.filter
        (fun r => rowHolds [⟨0, Comparison.Equal (Value.Const 5)⟩] r)) := by
  have h1 : Store.insert (Store.new 2 : Store Nat) [5, 1] =
      InsertResult.ok ⟨2, [[5, 1]], []⟩ := by decide
  have h2 : Store.insert (⟨2, [[5, 1]], []⟩ : Store Nat) [6, 2] =
      InsertResult.ok ⟨2, [[5, 1], [6, 2]], []⟩ := by decide
  have h3 : Store.index (⟨2, [[5, 1], [6, 2]], []⟩ : Store Nat) 0 (Index.Hash HashIndex.new) =
      some ⟨2, [[5, 1], [6, 2]], [(0, Index.Hash ⟨[(5, [0]), (6, [1])]⟩)]⟩ := by decide
  exact find_complete_exactly_once _ _
    (Reachable.indexStep _ _ _
      (Reachable.insertStep _ _ _
        (Reachable.insertStep _ _ _ (Reachable.new 2) h1) h2) h3)
    (by decide)

/-- C4: on every store reachable by construction, insert, and add_index,
every attached index on a column records exactly the set of
(value, row-id) pairs of the current rows: the bucket of every value is
precisely the ascending list of identifiers of the rows holding that
value at the indexed column — insert feeds every attached index the new
row's value with the new row id, and attaching back-fills in ascending
row-identifier order. -/
theorem index_sync_invariant [DecidableEq T] (s : Store T) (hreach : Reachable s) :
    ∀ p ∈ s.indices, ∀ v : T,
      Index.lookup p.2 v = matchingIdsFrom p.1 v 0 s.rows ∧
      ∀ i : Nat, i ∈ Index.lookup p.2 v ↔
        ((s.rows.get? i).bind (fun r => r.get? p.1)) = some v := by
  intro p hp v
  have hs := (reachable_inv hreach).2 p hp v
  refine ⟨hs, ?_⟩
  intro i
  rw [hs]
  constructor
  · intro hi
    rcases mem_matchingIdsFrom.1 hi with ⟨i0, hi0, hcell⟩
    have hii : i = i0 := by omega
    rw [hii]
    exact hcell
  · intro hcell
    exact mem_matchingIdsFrom.2 ⟨i, by omega, hcell⟩

/-- Witness for C4: a store reached by two inserts and a late index on
column 0; the index's bucket for the value 7 is in sync with the rows. -/
theorem index_sync_invariant_w :
    Index.lookup (Index.Hash (⟨[(7, [0]), (8, [1])]⟩ : HashIndex Nat)) 7 =
        matchingIdsFrom 0 7 0 [[7, 1], [8, 2]] ∧
      ∀ i : Nat, i ∈ Index.lookup (Index.Hash (⟨[(7, [0]), (8, [1])]⟩ : HashIndex Nat)) 7 ↔
        ((([[7, 1], [8, 2]] : List (List Nat)).get? i).bind (fun r => r.get? 0)) = some 7 := by
  have h1 : Store.insert (Store.new 2 : Store Nat) [7, 1] =
      InsertResult.ok ⟨2, [[7, 1]], []⟩ := by decide
  have h2 : Store.insert (⟨2, [[7, 1]], []⟩ : Store Nat) [8, 2] =
      InsertResult.ok ⟨2, [[7, 1], [8, 2]], []⟩ := by decide
  have h3 : Store.index (⟨2, [[7, 1], [8, 2]], []⟩ : Store Nat) 0 (Index.Hash HashIndex.new) =
      some ⟨2, [[7, 1], [8, 2]], [(0, Index.Hash ⟨[(7, [0]), (8, [1])]⟩)]⟩ := by decide
  exact index_sync_invariant _
    (Reachable.indexStep _ _ _
      (Reachable.insertStep _ _ _
        (Reachable.insertStep _ _ _ (Reachable.new 2) h1) h2) h3)
    (0, Index.Hash ⟨[(7, [0]), (8, [1])]⟩) (by decide) 7

/-- C10: the `unreachable!()` branch of `find` is never executed —
whenever the planner selects a best candidate at condition position `ci`,
that position is in bounds of the condition list and the condition there
is an equality against a constant, because the candidate filter admits
only such conditions and the condition list is not mutated between the
filter and the later re-match. -/
theorem planner_selected_is_eq_const [DecidableEq T] (s : Store T)
    (conds : List (Condition T)) (ci : Nat) (idx : Index T)
    (h : planBest s conds = some (ci, idx)) :
    ∃ c v, conds.get? ci = some c ∧ c.cmp = Comparison.Equal (Value.Const v) := by
  rcases candidates_spec (planBest_mem h) with ⟨c, v, hgc, hcmp, hassoc⟩
  exact ⟨c, v, hgc, hcmp⟩

/-- Witness for C10: with an index on column 0 and an equality condition,
the planner selects position 0 and the condition there is the equality
against the constant. -/
theorem planner_selected_is_eq_const_w :
    ∃ c v, ([⟨0, Comparison.Equal (Value.Const 7)⟩] : List (Condition Nat)).get? 0 = some c ∧
      c.cmp = Comparison.Equal (Value.Const v) :=
  planner_selected_is_eq_const (⟨1, [[7]], [(0, Index.Hash ⟨[(7, [0])]⟩)]⟩ : Store Nat)
    [⟨0, Comparison.Equal (Value.Const 7)⟩] 0 (Index.Hash ⟨[(7, [0])]⟩) (by decide)

/-- C5: whenever the planner of `find` selects a best candidate `(ci,
idx)`, that pair is one of the filtered candidates (conditions whose
column has an attached index and whose comparison is equality against a
constant), its cost estimate is minimal among all candidates, and among
candidates sharing the minimal estimate the selected one has the least
condition position — the first-encountered condition wins,
deterministically, matching `Iterator::min_by_key`. -/
theorem planner_min_first_tie [DecidableEq T] (s : Store T)
    (conds : List (Condition T)) (ci : Nat) (idx : Index T)
    (h : planBest s conds = some (ci, idx)) :
    (ci, idx) ∈ candidates s conds ∧
      ∀ q ∈ candidates s conds,
        idx.estimate ≤ q.2.estimate ∧ (q.2.estimate = idx.estimate → ci ≤ q.1) := by
  have hmem := planBest_mem h
  have hmin := @minByKeyFirst_min (Nat × Index T) (fun q2 => q2.2.estimate)
    (candidates s conds) (ci, idx) h
  have hfirst := @minByKeyFirst_first (Nat × Index T) (fun q2 => q2.2.estimate)
    (candidates s conds) (ci, idx) h
  refine ⟨hmem, ?_⟩
  intro q hq
  refine ⟨hmin q hq, ?_⟩
  intro heq
  rcases hfirst with ⟨l1, l2, hsplit, hgt⟩
  rw [hsplit] at hq
  rcases List.mem_append.1 hq with hq | hq
  · have hlt : idx.estimate < q.2.estimate := hgt q hq
    omega
  · rcases List.mem_cons.1 hq with hq | hq
    · rw [hq]
    · have hpw : (candidates s conds).Pairwise (fun p q2 => p.1 < q2.1) := candidates_pairwise
      rw [hsplit] at hpw
      have hsub : ((ci, idx) :: l2).Sublist (l1 ++ (ci, idx) :: l2) :=
        List.sublist_append_right _ _
      have hpw2 := hpw.sublist hsub
      have hlt : ci < q.1 := (List.pairwise_cons.1 hpw2).1 q hq
      omega

/-- Witness for C5: two indexed equality conditions with equal estimates;
the planner deterministically selects the first. -/
theorem planner_min_first_tie_w :
    ((0 : Nat), Index.Hash (⟨[(1, [0])]⟩ : HashIndex Nat)) ∈
        candidates (⟨2, [[1, 2]], [(0, Index.Hash ⟨[(1, [0])]⟩), (1, Index.Hash ⟨[(2, [0])]⟩)]⟩ :
          Store Nat) [⟨0, Comparison.Equal (Value.Const 1)⟩, ⟨1, Comparison.Equal (Value.Const 2)⟩] ∧
      ∀ q ∈ candidates (⟨2, [[1, 2]],
          [(0, Index.Hash ⟨[(1, [0])]⟩), (1, Index.Hash ⟨[(2, [0])]⟩)]⟩ : Store Nat)
          [⟨0, Comparison.Equal (Value.Const 1)⟩, ⟨1, Comparison.Equal (Value.Const 2)⟩],
        (Index.Hash (⟨[(1, [0])]⟩ : HashIndex Nat)).estimate ≤ q.2.estimate ∧
          (q.2.estimate = (Index.Hash (⟨[(1, [0])]⟩ : HashIndex Nat)).estimate → 0 ≤ q.1) :=
  planner_min_first_tie _ _ 0 (Index.Hash ⟨[(1, [0])]⟩) (by decide)

/-- C3: for every column `C` below the column count, every constant `v`,
and every sequence of (well-shaped) inserted rows, `find` on the single
condition `column C = v` returns the same rows in three configurations:
no index on `C`, an index attached on `C` before the rows were inserted,
and an index attached on `C` after the rows were inserted. -/
theorem find_index_transparent [DecidableEq T] (cols colC : Nat) (v : T)
    (rows : List (List T)) (hC : colC < cols) (hwf : ∀ r ∈ rows, r.length = cols) :
    ∃ sA sB sC,
      insertAll (Store.new cols) rows = some sA ∧
      (∃ sB0, Store.index (Store.new cols) colC (Index.Hash HashIndex.new) = some sB0 ∧
        insertAll sB0 rows = some sB) ∧
      Store.index sA colC (Index.Hash HashIndex.new) = some sC ∧
      Store.find sA [⟨colC, Comparison.Equal (Value.Const v)⟩] =
        Store.find sB [⟨colC, Comparison.Equal (Value.Const v)⟩] ∧
      Store.find sB [⟨colC, Comparison.Equal (Value.Const v)⟩] =
        Store.find sC [⟨colC, Comparison.Equal (Value.Const v)⟩] := by
  -- configuration A: plain inserts, no index
  rcases @insertAll_ok T _ cols rows (Store.new cols) rfl hwf
      (fun p hp => absurd hp (List.not_mem_nil p)) with ⟨sA, hA, hAc, hAr, hAi⟩
  have hAr2 : sA.rows = rows := by rw [hAr]; exact List.nil_append rows
  -- configuration B: index first, then inserts
  have hB0 : Store.index (Store.new cols : Store T) colC (Index.Hash HashIndex.new) =
      some ⟨cols, [], [(colC, Index.Hash HashIndex.new)]⟩ := rfl
  have hB0i : ∀ p ∈ (⟨cols, [], [(colC, Index.Hash HashIndex.new)]⟩ : Store T).indices,
      p.1 < cols := by
    intro p hp
    have hp2 : p = (colC, Index.Hash HashIndex.new) := List.mem_singleton.1 hp
    rw [hp2]
    exact hC
  rcases @insertAll_ok T _ cols rows ⟨cols, [], [(colC, Index.Hash HashIndex.new)]⟩ rfl hwf hB0i
    with ⟨sB, hB, hBc, hBr, hBi⟩
  have hBr2 : sB.rows = rows := by rw [hBr]; exact List.nil_append rows
  -- configuration C: inserts first, then index
  have hColA : ∀ r ∈ sA.rows, colC < r.length := by
    intro r hr
    rw [hAr2] at hr
    rw [hwf r hr]
    exact hC
  rcases populate_exists hColA (Index.Hash HashIndex.new) 0 with ⟨idx2, hpop⟩
  have hCeq : Store.index sA colC (Index.Hash HashIndex.new) =
      some ⟨sA.cols, sA.rows, assocPut colC idx2 sA.indices⟩ := by
    simp only [Store.index, hpop]
  -- reachability of all three configurations
  have hRA : Reachable sA := insertAll_reachable (Reachable.new cols) hA
  have hRB : Reachable sB :=
    insertAll_reachable (Reachable.indexStep _ _ _ (Reachable.new cols) hB0) hB
  have hRC : Reachable (⟨sA.cols, sA.rows, assocPut colC idx2 sA.indices⟩ : Store T) :=
    Reachable.indexStep _ _ _ hRA hCeq
  -- all three stores have the same rows and the same column count
  have hcondA : ∀ c ∈ [(⟨colC, Comparison.Equal (Value.Const v)⟩ : Condition T)],
      c.column < sA.cols := by
    intro c hc
    rw [List.mem_singleton.1 hc, hAc]
    exact hC
  have hcondB : ∀ c ∈ [(⟨colC, Comparison.Equal (Value.Const v)⟩ : Condition T)],
      c.column < sB.cols := by
    intro c hc
    rw [List.mem_singleton.1 hc, hBc]
    exact hC
  have hcondC : ∀ c ∈ [(⟨colC, Comparison.Equal (Value.Const v)⟩ : Condition T)],
      c.column < (⟨sA.cols, sA.rows, assocPut colC idx2 sA.indices⟩ : Store T).cols := by
    intro c hc
    rw [List.mem_singleton.1 hc]
    show colC < sA.cols
    rw [hAc]
    exact hC
  have hfA := find_spec (reachable_inv hRA) hcondA
  have hfB := find_spec (reachable_inv hRB) hcondB
  have hfC := find_spec (reachable_inv hRC) hcondC
  refine ⟨sA, sB, ⟨sA.cols, sA.rows, assocPut colC idx2 sA.indices⟩, hA,
    ⟨⟨cols, [], [(colC, Index.Hash HashIndex.new)]⟩, hB0, hB⟩, hCeq, ?_, ?_⟩
  · rw [hfA, hfB, hAr2, hBr2]
  · rw [hfB, hfC, hBr2]
    show _ = some (List.filter _ sA.rows)
    rw [hAr2]

/-- Witness for C3: three rows on two columns, queried on column 0. -/
theorem find_index_transparent_w :
    ∃ sA sB sC : Store Nat,
      insertAll (Store.new 2) [[5, 1], [5, 2], [6, 3]] = some sA ∧
      (∃ sB0, Store.index (Store.new 2) 0 (Index.Hash HashIndex.new) = some sB0 ∧
        insertAll sB0 [[5, 1], [5, 2], [6, 3]] = some sB) ∧
      Store.index sA 0 (Index.Hash HashIndex.new) = some sC ∧
      Store.find sA [⟨0, Comparison.Equal (Value.Const 5)⟩] =
        Store.find sB [⟨0, Comparison.Equal (Value.Const 5)⟩] ∧
      Store.find sB [⟨0, Comparison.Equal (Value.Const 5)⟩] =
        Store.find sC [⟨0, Comparison.Equal (Value.Const 5)⟩] :=
  find_index_transparent 2 0 5 [[5, 1], [5, 2], [6, 3]] (by decide) (by decide)

/-- C6 counterexample: `insert` of a one-element row into a 2-column store
is not reported to the caller as a recoverable shape-mismatch error: it
panics — `panicked` models the `assert_eq!` abort, and the source's
`insert` returns unit with no error channel at all — so the claimed
recoverable failure does not exist. -/
theorem insert_shape_mismatch_cex :
    Store.insert (Store.new 2 : Store Nat) [0] = InsertResult.panicked (Store.new 2) := rfl

/-- C6 amended: `insert` with a row whose length differs from the store's
column count panics via `assert_eq!` (modelled as `panicked` carrying the
unchanged store), aborting the process rather than returning a distinct
recoverable shape-mismatch error to the caller. -/
theorem insert_shape_mismatch_panics [DecidableEq T] (s : Store T) (row : List T)
    (h : row.length ≠ s.cols) : Store.insert s row = InsertResult.panicked s := by
  simp only [Store.insert, if_neg h]

/-- Witness for the amended C6 at a concrete store and row. -/
theorem insert_shape_mismatch_panics_w :
    Store.insert (Store.new 3 : Store Nat) [1] = InsertResult.panicked (Store.new 3) :=
  insert_shape_mismatch_panics _ _ (by decide)

/-- C7: when `insert` is called with a row of the wrong length, the
store's state is unchanged on that error path — the assertion precedes
every mutation, so the call never succeeds, and the state at the moment
of the panic has the original row sequence (the row is never appended)
and the original indices (no attached index records any new pair). -/
theorem insert_shape_error_state_unchanged [DecidableEq T] (s : Store T)
    (row : List T) (h : row.length ≠ s.cols) :
    (∀ s2, Store.insert s row ≠ InsertResult.ok s2) ∧
      ∀ s2, Store.insert s row = InsertResult.panicked s2 →
        s2.rows = s.rows ∧ s2.indices = s.indices := by
  have he : Store.insert s row = InsertResult.panicked s := by
    simp only [Store.insert, if_neg h]
  constructor
  · intro s2 hc
    rw [he] at hc
    exact InsertResult.noConfusion hc
  · intro s2 hp
    rw [he] at hp
    cases hp
    exact ⟨rfl, rfl⟩

/-- Witness for C7 at a concrete store and row. -/
theorem insert_shape_error_state_unchanged_w :
    (∀ s2, Store.insert (Store.new 2 : Store Nat) [9] ≠ InsertResult.ok s2) ∧
      ∀ s2, Store.insert (Store.new 2 : Store Nat) [9] = InsertResult.panicked s2 →
        s2.rows = (Store.new 2 : Store Nat).rows ∧
          s2.indices = (Store.new 2 : Store Nat).indices :=
  insert_shape_error_state_unchanged _ _ (by decide)

/-- C8 counterexample: a condition on column 5 of a 2-column store is not
reported as an invalid-argument error.  On an empty store `find` silently
succeeds with an empty result, and on a store holding one row it panics
(`none` models the out-of-bounds `row[column]` indexing) while evaluating
the condition — in neither case does an invalid-column error exist. -/
theorem find_invalid_column_cex :
    Store.find (Store.new 2 : Store Nat) [⟨5, Comparison.Equal (Value.Const 0)⟩] = some [] ∧
      Store.find (⟨2, [[0, 0]], []⟩ : Store Nat)
        [⟨5, Comparison.Equal (Value.Const 0)⟩] = none :=
  ⟨rfl, rfl⟩

/-- C8 amended: `find` performs no validation of condition columns.  When
no candidate row reaches the out-of-range condition (empty store without
indices) it silently returns an empty result, and when a candidate row is
evaluated against it, it panics on the out-of-bounds column read — it
never reports an invalid-argument error. -/
theorem find_invalid_column_behavior [DecidableEq T] :
    (∀ (s : Store T) (conds : List (Condition T)), s.rows = [] → s.indices = [] →
        Store.find s conds = some []) ∧
      ∀ (s : Store T) (r : List T) (rest : List (List T)) (c : Condition T)
        (cs : List (Condition T)), s.indices = [] → s.rows = r :: rest →
        r.length ≤ c.column → Store.find s (c :: cs) = none := by
  constructor
  · intro s conds hrows hidx
    have hplan : planBest s conds = none := by
      simp only [planBest, candidates_of_no_indices hidx]
      rfl
    rw [find_eq_of_plan_none hplan, hrows]
    rfl
  · intro s r rest c cs hidx hrows hlen
    have hplan : planBest s (c :: cs) = none := by
      simp only [planBest, candidates_of_no_indices hidx]
      rfl
    rw [find_eq_of_plan_none hplan, hrows]
    have hget : r.get? c.column = none := List.get?_eq_none.2 hlen
    have hmat : c.matches r = none := by
      cases hcmp : c.cmp with
      | Equal val =>
        cases val with
        | Const v => simp only [Condition.matches, hcmp, hget, Option.map_none']
    have hall : allMatch (c :: cs) r = none := by
      simp only [allMatch, hmat]
    rw [List.length_cons, List.range_succ_eq_map]
    simp only [scanFilter, List.get?_cons_zero, hall]

/-- Witness for the amended C8 at concrete stores and conditions. -/
theorem find_invalid_column_behavior_w :
    Store.find (Store.new 2 : Store Nat) [⟨9, Comparison.Equal (Value.Const 0)⟩] = some [] ∧
      Store.find (⟨2, [[1, 2]], []⟩ : Store Nat)
        [⟨7, Comparison.Equal (Value.Const 0)⟩] = none :=
  ⟨(@find_invalid_column_behavior Nat _).1 _ _ rfl rfl,
    (@find_invalid_column_behavior Nat _).2 _ _ _ _ _ rfl rfl (by decide)⟩

/-- C9 counterexample: `add_index` on column 5 of an empty 2-column store
does not fail with an invalid-column error for this store state — it
silently attaches the index. -/
theorem add_index_invalid_column_cex :
    Store.index (Store.new 2 : Store Nat) 5 (Index.Hash HashIndex.new) =
      some ⟨2, [], [(5, Index.Hash HashIndex.new)]⟩ := rfl

/-- C9 amended: `add_index` performs no bounds check on the column.  On an
empty store any column, in range or not, silently attaches the index; on
a store with at least one row a column out of range of the first row
panics during back-fill — it never reports an invalid-column error. -/
theorem add_index_invalid_column_behavior [DecidableEq T] :
    (∀ (s : Store T) (col : Nat) (idx : Index T), s.rows = [] →
        Store.index s col idx = some ⟨s.cols, s.rows, assocPut col idx s.indices⟩) ∧
      ∀ (s : Store T) (col : Nat) (idx : Index T) (r : List T) (rest : List (List T)),
        s.rows = r :: rest → r.length ≤ col → Store.index s col idx = none := by
  constructor
  · intro s col idx hrows
    simp only [Store.index, hrows, populate]
  · intro s col idx r rest hrows hlen
    have hget : r.get? col = none := List.get?_eq_none.2 hlen
    simp only [Store.index, hrows, populate, hget]

/-- Witness for the amended C9 at concrete stores. -/
theorem add_index_invalid_column_behavior_w :
    Store.index (Store.new 3 : Store Nat) 9 (Index.Hash HashIndex.new) =
        some ⟨3, [], [(9, Index.Hash HashIndex.new)]⟩ ∧
      Store.index (⟨1, [[4]], []⟩ : Store Nat) 2 (Index.Hash HashIndex.new) = none :=
  ⟨(@add_index_invalid_column_behavior Nat _).1 _ _ _ rfl,
    (@add_index_invalid_column_behavior Nat _).2 _ _ _ _ _ rfl (by decide)⟩

end Claims

end Shortcut
